import Mathlib

/-!
Verification of the four evaluation engines of the recursion_optimization
repository (src/lib.rs): the memoized recursive engine `foo1`, the explicit
stack machine `foo2`, the suspension-based engine `foo3`, and the bottom-up
tabulation engine `foo4`.  All are shallowly embedded over `Nat`; the Rust
`HashMap` cache is modelled as an association list whose `insert` prepends
and whose `get` returns the most recent binding, which matches overwrite
semantics of `HashMap::insert`.
-/

/-- The memoization cache: a mapping from coordinate pairs to results,
modelling `FnvHashMap<(u32, u32), u32>`. -/
abbrev Cache := List ((Nat × Nat) × Nat)

/-- Cache lookup, modelling `cache.get(&(x, y))`. -/
def Cache.get : Cache → Nat × Nat → Option Nat
  | [], _ => none
  | (k, v) :: t, k' => if k = k' then some v else Cache.get t k'

/-- Cache insertion, modelling `cache.insert((x, y), tr)`: the new binding
shadows any older one. -/
def Cache.insert (c : Cache) (k : Nat × Nat) (v : Nat) : Cache := (k, v) :: c

/-- Modelled from the spec: the recurrence
`R(x, y) = 1` if `x = 0` or `y = 0`, and
`R(x, y) = (R(x-1, y-1) + R(x, y-1) + R(x-1, y)) mod 1000` otherwise. -/
def R (x y : Nat) : Nat :=
  if x = 0 ∨ y = 0 then 1
  else (R (x - 1) (y - 1) + R x (y - 1) + R (x - 1) y) % 1000
termination_by x + y
decreasing_by all_goals omega

theorem R_base {x y : Nat} (h : x = 0 ∨ y = 0) : R x y = 1 := by
  rw [R, if_pos h]

theorem R_rec {x y : Nat} (hx : 1 ≤ x) (hy : 1 ≤ y) :
    R x y = (R (x - 1) (y - 1) + R x (y - 1) + R (x - 1) y) % 1000 := by
  rw [R, if_neg (by omega)]

theorem R_lt (x y : Nat) : R x y < 1000 := by
  rw [R]
  split
  · omega
  · exact Nat.mod_lt _ (by omega)

theorem R_symm : ∀ x y : Nat, R x y = R y x := by
  have main : ∀ s : Nat, ∀ x y : Nat, x + y ≤ s → R x y = R y x := by
    intro s
    induction s with
    | zero =>
      intro x y h
      have hx : x = 0 := by omega
      have hy : y = 0 := by omega
      subst hx; subst hy; rfl
    | succ s ih =>
      intro x y h
      by_cases hb : x = 0 ∨ y = 0
      · rw [R_base hb, R_base (by omega)]
      · have hx : 1 ≤ x := by omega
        have hy : 1 ≤ y := by omega
        rw [R_rec hx hy, R_rec hy hx]
        have e1 : R (x - 1) (y - 1) = R (y - 1) (x - 1) := ih _ _ (by omega)
        have e2 : R x (y - 1) = R (y - 1) x := ih _ _ (by omega)
        have e3 : R (x - 1) y = R y (x - 1) := ih _ _ (by omega)
        rw [e1, e2, e3]
        have : R (y - 1) (x - 1) + R (y - 1) x + R y (x - 1)
            = R (y - 1) (x - 1) + R y (x - 1) + R (y - 1) x := by omega
        rw [this]
  intro x y
  exact main (x + y) x y le_rfl

/-! ## Engine 1: `foo1`, recursive descent with memoization -/

/-- Embeds `foo1_helper` from src/lib.rs: base case, cache check, then three
recursive calls in source order with the cache threaded through, `% 1000`,
insert, return. -/
def foo1_helper (x y : Nat) (cache : Cache) : Nat × Cache :=
  if x = 0 ∨ y = 0 then (1, cache)
  else
    match Cache.get cache (x, y) with
    | some res => (res, cache)
    | none =>
      let p1 := foo1_helper (x - 1) (y - 1) cache
      let p2 := foo1_helper x (y - 1) p1.2
      let p3 := foo1_helper (x - 1) y p2.2
      let tr := (p1.1 + p2.1 + p3.1) % 1000
      (tr, Cache.insert p3.2 (x, y) tr)
termination_by x + y
decreasing_by all_goals omega

/-- Embeds `foo1`: run the helper on a fresh empty cache. -/
def foo1 (x y : Nat) : Nat := (foo1_helper x y []).1

theorem foo1_helper_base {x y : Nat} (c : Cache) (h : x = 0 ∨ y = 0) :
    foo1_helper x y c = (1, c) := by
  rw [foo1_helper, if_pos h]

theorem foo1_helper_hit {x y res : Nat} {c : Cache} (h : ¬(x = 0 ∨ y = 0))
    (hc : Cache.get c (x, y) = some res) : foo1_helper x y c = (res, c) := by
  rw [foo1_helper, if_neg h, hc]

theorem foo1_helper_miss {x y : Nat} {c : Cache} (h : ¬(x = 0 ∨ y = 0))
    (hc : Cache.get c (x, y) = none) :
    foo1_helper x y c =
      let p1 := foo1_helper (x - 1) (y - 1) c
      let p2 := foo1_helper x (y - 1) p1.2
      let p3 := foo1_helper (x - 1) y p2.2
      let tr := (p1.1 + p2.1 + p3.1) % 1000
      (tr, Cache.insert p3.2 (x, y) tr) := by
  rw [foo1_helper, if_neg h, hc]

/-! ## Cache predicates and lemmas -/

/-- Every cache entry stores exactly the recurrence value of its key. -/
def GoodC (c : Cache) : Prop := ∀ e ∈ c, e.2 = R e.1.1 e.1.2

/-- Every cache entry is already reduced modulo 1000. -/
def entriesLt (c : Cache) : Prop := ∀ e ∈ c, e.2 < 1000

/-- The list of keys of a cache, most recent first. -/
def ckeys (c : Cache) : List (Nat × Nat) := c.map Prod.fst

theorem ckeys_insert (c : Cache) (k : Nat × Nat) (v : Nat) :
    ckeys (Cache.insert c k v) = k :: ckeys c := rfl

theorem Cache.get_mem {k : Nat × Nat} {v : Nat} :
    ∀ {c : Cache}, Cache.get c k = some v → (k, v) ∈ c := by
  intro c
  induction c with
  | nil => intro h; exact absurd h (by simp [Cache.get])
  | cons e t ihc =>
    intro h
    obtain ⟨ek, ev⟩ := e
    simp only [Cache.get] at h
    split at h
    · next heq =>
      injection h with h
      subst heq
      subst h
      exact List.mem_cons_self _ _
    · exact List.mem_cons_of_mem _ (ihc h)

theorem Cache.get_eq_none {k : Nat × Nat} :
    ∀ {c : Cache}, Cache.get c k = none ↔ k ∉ ckeys c := by
  intro c
  induction c with
  | nil => simp [Cache.get, ckeys]
  | cons e t ihc =>
    obtain ⟨ek, ev⟩ := e
    simp only [Cache.get, ckeys, List.map_cons, List.mem_cons]
    split
    · next heq => simp [heq]
    · next hne =>
      rw [ihc]
      simp only [ckeys]
      constructor
      · intro h hor
        rcases hor with h1 | h2
        · exact hne h1.symm
        · exact h h2
      · intro h h2
        exact h (Or.inr h2)

/-- Main induction for `foo1_helper`: value correctness with a good cache,
range bound with a reduced cache, key localisation, and key distinctness. -/
theorem foo1_main : ∀ s : Nat, ∀ x y : Nat, x + y ≤ s → ∀ c : Cache,
    (GoodC c → (foo1_helper x y c).1 = R x y ∧ GoodC (foo1_helper x y c).2)
    ∧ (entriesLt c → (foo1_helper x y c).1 < 1000 ∧ entriesLt (foo1_helper x y c).2)
    ∧ (∀ k, k ∈ ckeys (foo1_helper x y c).2 →
        k ∈ ckeys c ∨ (1 ≤ k.1 ∧ k.1 ≤ x ∧ 1 ≤ k.2 ∧ k.2 ≤ y))
    ∧ ((ckeys c).Nodup → (ckeys (foo1_helper x y c).2).Nodup) := by
  have base : ∀ x y : Nat, (x = 0 ∨ y = 0) → ∀ c : Cache,
      (GoodC c → (foo1_helper x y c).1 = R x y ∧ GoodC (foo1_helper x y c).2)
      ∧ (entriesLt c → (foo1_helper x y c).1 < 1000 ∧ entriesLt (foo1_helper x y c).2)
      ∧ (∀ k, k ∈ ckeys (foo1_helper x y c).2 →
          k ∈ ckeys c ∨ (1 ≤ k.1 ∧ k.1 ≤ x ∧ 1 ≤ k.2 ∧ k.2 ≤ y))
      ∧ ((ckeys c).Nodup → (ckeys (foo1_helper x y c).2).Nodup) := by
    intro x y hb c
    rw [foo1_helper_base c hb]
    exact ⟨fun hg => ⟨(R_base hb).symm, hg⟩, fun hl => ⟨by omega, hl⟩,
      fun k hk => Or.inl hk, fun hn => hn⟩
  intro s
  induction s with
  | zero =>
    intro x y hs c
    exact base x y (by omega) c
  | succ s ih =>
    intro x y hs c
    by_cases hb : x = 0 ∨ y = 0
    · exact base x y hb c
    · have hx : 1 ≤ x := by omega
      have hy : 1 ≤ y := by omega
      cases hcg : Cache.get c (x, y) with
      | some res =>
        rw [foo1_helper_hit hb hcg]
        have hmem := Cache.get_mem hcg
        refine ⟨fun hg => ⟨hg _ hmem, hg⟩, fun hl => ⟨hl _ hmem, hl⟩,
          fun k hk => Or.inl hk, fun hn => hn⟩
      | none =>
        rw [foo1_helper_miss hb hcg]
        obtain ⟨g1, l1, k1, n1⟩ := ih (x - 1) (y - 1) (by omega) c
        obtain ⟨g2, l2, k2, n2⟩ := ih x (y - 1) (by omega) (foo1_helper (x - 1) (y - 1) c).2
        obtain ⟨g3, l3, k3, n3⟩ :=
          ih (x - 1) y (by omega) (foo1_helper x (y - 1) (foo1_helper (x - 1) (y - 1) c).2).2
        refine ⟨?_, ?_, ?_, ?_⟩
        · intro hg
          obtain ⟨e1, hg1⟩ := g1 hg
          obtain ⟨e2, hg2⟩ := g2 hg1
          obtain ⟨e3, hg3⟩ := g3 hg2
          have hval : ((foo1_helper (x - 1) (y - 1) c).1
              + (foo1_helper x (y - 1) (foo1_helper (x - 1) (y - 1) c).2).1
              + (foo1_helper (x - 1) y
                  (foo1_helper x (y - 1) (foo1_helper (x - 1) (y - 1) c).2).2).1) % 1000
              = R x y := by
            rw [e1, e2, e3, ← R_rec hx hy]
          refine ⟨hval, ?_⟩
          intro e he
          rcases List.mem_cons.1 he with rfl | he2
          · exact hval
          · exact hg3 _ he2
        · intro hl
          obtain ⟨f1, hl1⟩ := l1 hl
          obtain ⟨f2, hl2⟩ := l2 hl1
          obtain ⟨f3, hl3⟩ := l3 hl2
          refine ⟨Nat.mod_lt _ (by omega), ?_⟩
          intro e he
          rcases List.mem_cons.1 he with rfl | he2
          · exact Nat.mod_lt _ (by omega)
          · exact hl3 _ he2
        · intro k hk
          rw [ckeys_insert] at hk
          rcases List.mem_cons.1 hk with rfl | hk2
          · exact Or.inr ⟨hx, le_rfl, hy, le_rfl⟩
          · rcases k3 k hk2 with hk3 | hb3
            · rcases k2 k hk3 with hk4 | hb2
              · rcases k1 k hk4 with hk5 | hb1
                · exact Or.inl hk5
                · exact Or.inr ⟨hb1.1, by omega, hb1.2.2.1, by omega⟩
              · exact Or.inr ⟨hb2.1, hb2.2.1, hb2.2.2.1, by omega⟩
            · exact Or.inr ⟨hb3.1, by omega, hb3.2.2.1, hb3.2.2.2⟩
        · intro hn
          have hn3 := n3 (n2 (n1 hn))
          rw [ckeys_insert]
          refine List.Nodup.cons ?_ hn3
          intro hmem
          rcases k3 _ hmem with hk3 | hb3
          · rcases k2 _ hk3 with hk4 | hb2
            · rcases k1 _ hk4 with hk5 | hb1
              · exact (Cache.get_eq_none.1 hcg) hk5
              · omega
            · omega
          · omega

theorem foo1_eq_R (x y : Nat) : foo1 x y = R x y := by
  have h := (foo1_main (x + y) x y le_rfl []).1
  exact (h (by intro e he; cases he)).1

/-! ## Engine 3: `foo3`, suspension-based recursion

`foo3_helper` is the `async_recursion` version of the same algorithm; the
awaits are resolved synchronously in source order by `block_on`, so the
embedding sequences the three sub-computations exactly as `foo1_helper`
does. -/

/-- Embeds `foo3_helper` from src/lib.rs. -/
def foo3_helper (x y : Nat) (cache : Cache) : Nat × Cache :=
  if x = 0 ∨ y = 0 then (1, cache)
  else
    match Cache.get cache (x, y) with
    | some res => (res, cache)
    | none =>
      let p1 := foo3_helper (x - 1) (y - 1) cache
      let p2 := foo3_helper x (y - 1) p1.2
      let p3 := foo3_helper (x - 1) y p2.2
      let tr := (p1.1 + p2.1 + p3.1) % 1000
      (tr, Cache.insert p3.2 (x, y) tr)
termination_by x + y
decreasing_by all_goals omega

/-- Embeds `foo3`: `block_on` of the helper on a fresh empty cache. -/
def foo3 (x y : Nat) : Nat := (foo3_helper x y []).1

theorem foo3_helper_eq_foo1 : ∀ s : Nat, ∀ x y : Nat, x + y ≤ s → ∀ c : Cache,
    foo3_helper x y c = foo1_helper x y c := by
  intro s
  induction s with
  | zero =>
    intro x y hs c
    have hb : x = 0 ∨ y = 0 := by omega
    rw [foo3_helper, if_pos hb, foo1_helper_base c hb]
  | succ s ih =>
    intro x y hs c
    by_cases hb : x = 0 ∨ y = 0
    · rw [foo3_helper, if_pos hb, foo1_helper_base c hb]
    · cases hcg : Cache.get c (x, y) with
      | some res =>
        rw [foo3_helper, if_neg hb, hcg, foo1_helper_hit hb hcg]
      | none =>
        rw [foo3_helper, if_neg hb, hcg, foo1_helper_miss hb hcg]
        have hx : 1 ≤ x := by omega
        have hy : 1 ≤ y := by omega
        dsimp only
        rw [ih (x - 1) (y - 1) (by omega) c]
        rw [ih x (y - 1) (by omega) (foo1_helper (x - 1) (y - 1) c).2]
        rw [ih (x - 1) y (by omega) (foo1_helper x (y - 1) (foo1_helper (x - 1) (y - 1) c).2).2]

theorem foo3_eq_R (x y : Nat) : foo3 x y = R x y := by
  rw [foo3, foo3_helper_eq_foo1 (x + y) x y le_rfl [], ← foo1, foo1_eq_R]

/-! ## Engine 2: `foo2`, explicit stack machine -/

/-- Embeds the `StackState` enum local to `foo2`. -/
inductive StackState where
  | Initial : Nat → Nat → StackState
  | FirstRec : Nat → Nat → StackState
  | SecondRec : Nat → Nat → Nat → StackState
  | ThirdRec : Nat → Nat → Nat → Nat → StackState
deriving DecidableEq

/-- The mutable state of the `foo2` dispatch loop: the explicit stack (head
is the top, i.e. the last element pushed on the Rust `Vec`), the return
channel `rv`, and the cache. -/
structure Foo2State where
  stack : List StackState
  rv : Nat
  cache : Cache
deriving DecidableEq

/-- One iteration of the `while let Some(state) = stack.pop()` loop of
`foo2`; `none` means the stack was empty so the loop has ended. -/
def foo2_step (s : Foo2State) : Option Foo2State :=
  match s.stack with
  | [] => none
  | st :: rest =>
    match st with
    | .Initial x y =>
      if x = 0 ∨ y = 0 then some ⟨rest, 1, s.cache⟩
      else
        match Cache.get s.cache (x, y) with
        | some res => some ⟨rest, res, s.cache⟩
        | none =>
          some ⟨.Initial (x - 1) (y - 1) :: .FirstRec x y :: rest, s.rv, s.cache⟩
    | .FirstRec x y =>
      some ⟨.Initial x (y - 1) :: .SecondRec x y s.rv :: rest, s.rv, s.cache⟩
    | .SecondRec x y res1 =>
      some ⟨.Initial (x - 1) y :: .ThirdRec x y res1 s.rv :: rest, s.rv, s.cache⟩
    | .ThirdRec x y res1 res2 =>
      some ⟨rest, (res1 + res2 + s.rv) % 1000,
        Cache.insert s.cache (x, y) ((res1 + res2 + s.rv) % 1000)⟩

/-- Run the dispatch loop for at most `n` iterations (it stops by itself
once the stack is empty, like the `while let` loop). -/
def foo2_run : Nat → Foo2State → Foo2State
  | 0, s => s
  | n + 1, s =>
    match foo2_step s with
    | none => s
    | some s2 => foo2_run n s2

/-- The initial loop state of `foo2 x y`. -/
def foo2_init (x y : Nat) : Foo2State := ⟨[.Initial x y], 0, []⟩

/-- Embeds `foo2`: run the loop to completion (the fuel `4 ^ (x + y + 1)`
is proved sufficient below) and return the return channel. -/
def foo2 (x y : Nat) : Nat := (foo2_run (4 ^ (x + y + 1)) (foo2_init x y)).rv

theorem foo2_step_empty {s : Foo2State} (h : s.stack = []) : foo2_step s = none := by
  rw [foo2_step, h]

theorem foo2_run_empty {s : Foo2State} (h : s.stack = []) :
    ∀ n, foo2_run n s = s := by
  intro n
  cases n with
  | zero => rfl
  | succ n => rw [foo2_run, foo2_step_empty h]

theorem foo2_run_add (a : Nat) : ∀ (b : Nat) (s : Foo2State),
    foo2_run (a + b) s = foo2_run b (foo2_run a s) := by
  induction a with
  | zero =>
    intro b s
    rw [Nat.zero_add]
    rfl
  | succ a ih =>
    intro b s
    have hab : a + 1 + b = (a + b) + 1 := by omega
    cases h : foo2_step s with
    | none =>
      have hs : s.stack = [] := by
        cases hst : s.stack with
        | nil => rfl
        | cons f rest =>
          rw [foo2_step, hst] at h
          cases f with
          | Initial x y =>
            dsimp only at h
            split at h
            · cases h
            · split at h
              · cases h
              · cases h
          | FirstRec x y => cases h
          | SecondRec x y r1 => cases h
          | ThirdRec x y r1 r2 => cases h
      rw [foo2_run_empty hs, foo2_run_empty hs]
      exact (foo2_run_empty hs b).symm
    | some s2 =>
      have h1 : ∀ m, foo2_run (m + 1) s = foo2_run m s2 := by
        intro m
        rw [foo2_run, h]
      rw [hab, h1, h1, ih]

theorem foo2_run_one {s s2 : Foo2State} (h : foo2_step s = some s2) :
    foo2_run 1 s = s2 := by
  rw [foo2_run, h]
  rfl

theorem foo2_step_base {x y rv : Nat} {rest : List StackState} {c : Cache}
    (h : x = 0 ∨ y = 0) :
    foo2_step ⟨.Initial x y :: rest, rv, c⟩ = some ⟨rest, 1, c⟩ := by
  simp only [foo2_step]
  rw [if_pos h]

theorem foo2_step_hit {x y res rv : Nat} {rest : List StackState} {c : Cache}
    (h : ¬(x = 0 ∨ y = 0)) (hc : Cache.get c (x, y) = some res) :
    foo2_step ⟨.Initial x y :: rest, rv, c⟩ = some ⟨rest, res, c⟩ := by
  simp only [foo2_step]
  rw [if_neg h, hc]

theorem foo2_step_miss {x y rv : Nat} {rest : List StackState} {c : Cache}
    (h : ¬(x = 0 ∨ y = 0)) (hc : Cache.get c (x, y) = none) :
    foo2_step ⟨.Initial x y :: rest, rv, c⟩ =
      some ⟨.Initial (x - 1) (y - 1) :: .FirstRec x y :: rest, rv, c⟩ := by
  simp only [foo2_step]
  rw [if_neg h, hc]

theorem foo2_step_first {x y rv : Nat} {rest : List StackState} {c : Cache} :
    foo2_step ⟨.FirstRec x y :: rest, rv, c⟩ =
      some ⟨.Initial x (y - 1) :: .SecondRec x y rv :: rest, rv, c⟩ := rfl

theorem foo2_step_second {x y res1 rv : Nat} {rest : List StackState} {c : Cache} :
    foo2_step ⟨.SecondRec x y res1 :: rest, rv, c⟩ =
      some ⟨.Initial (x - 1) y :: .ThirdRec x y res1 rv :: rest, rv, c⟩ := rfl

theorem foo2_step_third {x y res1 res2 rv : Nat} {rest : List StackState} {c : Cache} :
    foo2_step ⟨.ThirdRec x y res1 res2 :: rest, rv, c⟩ =
      some ⟨rest, (res1 + res2 + rv) % 1000,
        Cache.insert c (x, y) ((res1 + res2 + rv) % 1000)⟩ := rfl

/-- The dispatch loop of `foo2` pops the `Initial x y` frame and everything
it spawns within at most `4 ^ (x + y + 1)` iterations, leaving the rest of
the stack untouched. -/
theorem foo2_term : ∀ s : Nat, ∀ x y : Nat, x + y ≤ s →
    ∀ (rest : List StackState) (rv : Nat) (c : Cache),
    ∃ n rv2 c2, 1 ≤ n ∧ n ≤ 4 ^ (x + y + 1) ∧
      foo2_run n ⟨.Initial x y :: rest, rv, c⟩ = ⟨rest, rv2, c2⟩ := by
  have one_le : ∀ x y : Nat, (1 : Nat) ≤ 4 ^ (x + y + 1) := by
    intro x y
    exact Nat.one_le_pow _ _ (by omega)
  intro s
  induction s with
  | zero =>
    intro x y hs rest rv c
    have hb : x = 0 ∨ y = 0 := by omega
    exact ⟨1, 1, c, le_rfl, one_le x y, foo2_run_one (foo2_step_base hb)⟩
  | succ s ih =>
    intro x y hs rest rv c
    by_cases hb : x = 0 ∨ y = 0
    · exact ⟨1, 1, c, le_rfl, one_le x y, foo2_run_one (foo2_step_base hb)⟩
    · have hx : 1 ≤ x := by omega
      have hy : 1 ≤ y := by omega
      cases hcg : Cache.get c (x, y) with
      | some res =>
        exact ⟨1, res, c, le_rfl, one_le x y, foo2_run_one (foo2_step_hit hb hcg)⟩
      | none =>
        obtain ⟨n1, rv1, c1, hn1p, hn1b, hrun1⟩ :=
          ih (x - 1) (y - 1) (by omega) (.FirstRec x y :: rest) rv c
        obtain ⟨n2, rv2, c2, hn2p, hn2b, hrun2⟩ :=
          ih x (y - 1) (by omega) (.SecondRec x y rv1 :: rest) rv1 c1
        obtain ⟨n3, rv3, c3, hn3p, hn3b, hrun3⟩ :=
          ih (x - 1) y (by omega) (.ThirdRec x y rv1 rv2 :: rest) rv2 c2
        have e1 : foo2_run 1 ⟨.Initial x y :: rest, rv, c⟩
            = ⟨.Initial (x - 1) (y - 1) :: .FirstRec x y :: rest, rv, c⟩ :=
          foo2_run_one (foo2_step_miss hb hcg)
        have e2 : foo2_run (1 + n1) ⟨.Initial x y :: rest, rv, c⟩
            = ⟨.FirstRec x y :: rest, rv1, c1⟩ := by
          rw [foo2_run_add, e1, hrun1]
        have e3 : foo2_run (1 + n1 + 1) ⟨.Initial x y :: rest, rv, c⟩
            = ⟨.Initial x (y - 1) :: .SecondRec x y rv1 :: rest, rv1, c1⟩ := by
          rw [foo2_run_add, e2, foo2_run_one foo2_step_first]
        have e4 : foo2_run (1 + n1 + 1 + n2) ⟨.Initial x y :: rest, rv, c⟩
            = ⟨.SecondRec x y rv1 :: rest, rv2, c2⟩ := by
          rw [foo2_run_add, e3, hrun2]
        have e5 : foo2_run (1 + n1 + 1 + n2 + 1) ⟨.Initial x y :: rest, rv, c⟩
            = ⟨.Initial (x - 1) y :: .ThirdRec x y rv1 rv2 :: rest, rv2, c2⟩ := by
          rw [foo2_run_add, e4, foo2_run_one foo2_step_second]
        have e6 : foo2_run (1 + n1 + 1 + n2 + 1 + n3) ⟨.Initial x y :: rest, rv, c⟩
            = ⟨.ThirdRec x y rv1 rv2 :: rest, rv3, c3⟩ := by
          rw [foo2_run_add, e5, hrun3]
        have e7 : foo2_run (1 + n1 + 1 + n2 + 1 + n3 + 1) ⟨.Initial x y :: rest, rv, c⟩
            = ⟨rest, (rv1 + rv2 + rv3) % 1000,
                Cache.insert c3 (x, y) ((rv1 + rv2 + rv3) % 1000)⟩ := by
          rw [foo2_run_add, e6, foo2_run_one foo2_step_third]
        refine ⟨1 + n1 + 1 + n2 + 1 + n3 + 1, (rv1 + rv2 + rv3) % 1000,
          Cache.insert c3 (x, y) ((rv1 + rv2 + rv3) % 1000), by omega, ?_, e7⟩
        have hx1 : x - 1 + (y - 1) + 1 = x + y - 1 := by omega
        have hx2 : x + (y - 1) + 1 = x + y := by omega
        have hx3 : x - 1 + y + 1 = x + y := by omega
        rw [hx1] at hn1b
        rw [hx2] at hn2b
        rw [hx3] at hn3b
        have p1 : (4 : Nat) ^ (x + y - 1) ≤ 4 ^ (x + y) :=
          Nat.pow_le_pow_right (by omega) (by omega)
        have p2 : (4 : Nat) ≤ 4 ^ (x + y) := by
          calc (4 : Nat) = 4 ^ 1 := (pow_one 4).symm
          _ ≤ 4 ^ (x + y) := Nat.pow_le_pow_right (by omega) (by omega)
        have p3 : (4 : Nat) ^ (x + y + 1) = 4 ^ (x + y) * 4 := pow_succ 4 (x + y)
        omega

/-! ## The dispatch-loop invariant of `foo2` -/

/-- The coordinate a frame is evaluating. -/
def StackState.coords : StackState → Nat × Nat
  | .Initial a b => (a, b)
  | .FirstRec a b => (a, b)
  | .SecondRec a b _ => (a, b)
  | .ThirdRec a b _ _ => (a, b)

/-- Sum of the two coordinates of a frame. -/
def StackState.fsum (f : StackState) : Nat := f.coords.1 + f.coords.2

/-- A frame of an in-flight call that has already dispatched a child
(everything except `Initial`). -/
def StackState.isAwait : StackState → Prop
  | .Initial _ _ => False
  | .FirstRec _ _ => True
  | .SecondRec _ _ _ => True
  | .ThirdRec _ _ _ _ => True

/-- The coordinate of the child most recently dispatched by a frame. -/
def StackState.pendingChild : StackState → Nat × Nat
  | .Initial a b => (a, b)
  | .FirstRec a b => (a - 1, b - 1)
  | .SecondRec a b _ => (a, b - 1)
  | .ThirdRec a b _ _ => (a - 1, b)

/-- The partial sub-results stored in a frame are the recurrence values of
the corresponding children. -/
def StackState.storedOK : StackState → Prop
  | .Initial _ _ => True
  | .FirstRec _ _ => True
  | .SecondRec a b r1 => r1 = R (a - 1) (b - 1)
  | .ThirdRec a b r1 r2 => r1 = R (a - 1) (b - 1) ∧ r2 = R a (b - 1)

/-- Invariant of the `foo2` dispatch loop for a top-level call `foo2 x0 y0`.
It ties the explicit stack, the return channel and the cache together. -/
structure Foo2Inv (x0 y0 : Nat) (s : Foo2State) : Prop where
  tailAwait : ∀ f ∈ s.stack.tail, f.isAwait
  sumChain : List.Chain' (fun a b => StackState.fsum a < StackState.fsum b) s.stack
  sumBound : ∀ f ∈ s.stack, f.fsum ≤ x0 + y0
  posOK : ∀ f ∈ s.stack, f.isAwait → 1 ≤ f.coords.1 ∧ 1 ≤ f.coords.2
  adj : List.Chain' (fun a b => a.coords = b.pendingChild) s.stack
  stored : ∀ f ∈ s.stack, f.storedOK
  rvHead : ∀ f ∈ s.stack.head?, f.isAwait → s.rv = R f.pendingChild.1 f.pendingChild.2
  cacheGood : GoodC s.cache
  cacheNodup : (ckeys s.cache).Nodup
  awaitFresh : ∀ f ∈ s.stack, f.isAwait → Cache.get s.cache f.coords = none
  rvLt : s.rv < 1000
  lastC : ∀ f ∈ s.stack.getLast?, f.coords = (x0, y0)
  emptyRv : s.stack = [] → s.rv = R x0 y0

theorem chain'_replace {α : Type} {Q : α → α → Prop} {h h2 : α} {t : List α}
    (hc : List.Chain' Q (h :: t)) (hr : ∀ z, Q h z → Q h2 z) :
    List.Chain' Q (h2 :: t) := by
  rcases List.chain'_cons'.1 hc with ⟨hh, ht⟩
  exact List.chain'_cons'.2 ⟨fun z hz => hr z (hh z hz), ht⟩

theorem chain'_push2 {α : Type} {Q : α → α → Prop} {h a b : α} {t : List α}
    (hc : List.Chain' Q (h :: t)) (hab : Q a b) (hb : ∀ z, Q h z → Q b z) :
    List.Chain' Q (a :: b :: t) :=
  List.chain'_cons.2 ⟨hab, chain'_replace hc hb⟩

theorem lastC_tail {P : StackState → Prop} {f : StackState} {rest : List StackState}
    (h : ∀ g ∈ (f :: rest).getLast?, P g) : ∀ g ∈ rest.getLast?, P g := by
  cases rest with
  | nil => intro g hg; simp at hg
  | cons r t =>
    intro g hg
    exact h g (by rw [List.getLast?_cons_cons]; exact hg)

theorem lastC_replace {P : StackState → Prop} {f b : StackState} {rest : List StackState}
    (hPb : P f → P b)
    (h : ∀ g ∈ (f :: rest).getLast?, P g) : ∀ g ∈ (b :: rest).getLast?, P g := by
  cases rest with
  | nil =>
    intro g hg
    simp only [List.getLast?_singleton, Option.mem_def, Option.some.injEq] at hg
    subst hg
    exact hPb (h f (by simp [List.getLast?_singleton]))
  | cons r t =>
    intro g hg
    rw [List.getLast?_cons_cons] at hg
    exact h g (by rw [List.getLast?_cons_cons]; exact hg)

theorem lastC_push2 {P : StackState → Prop} {f a b : StackState} {rest : List StackState}
    (hPb : P f → P b)
    (h : ∀ g ∈ (f :: rest).getLast?, P g) : ∀ g ∈ (a :: b :: rest).getLast?, P g := by
  intro g hg
  rw [List.getLast?_cons_cons] at hg
  exact lastC_replace hPb h g hg

theorem Cache.get_insert_ne {c : Cache} {k k2 : Nat × Nat} {v : Nat} (h : k ≠ k2) :
    Cache.get (Cache.insert c k v) k2 = Cache.get c k2 := by
  simp [Cache.insert, Cache.get, h]

theorem GoodC.insert {c : Cache} (hg : GoodC c) {k : Nat × Nat} {v : Nat}
    (hv : v = R k.1 k.2) : GoodC (Cache.insert c k v) := by
  intro e he
  rcases List.mem_cons.1 he with rfl | he2
  · exact hv
  · exact hg _ he2

theorem foo2_inv_step_base {x0 y0 x y rv : Nat} {rest : List StackState} {c : Cache}
    (hb : x = 0 ∨ y = 0)
    (hinv : Foo2Inv x0 y0 ⟨.Initial x y :: rest, rv, c⟩) :
    Foo2Inv x0 y0 ⟨rest, 1, c⟩ := by
  have htail : ∀ f ∈ rest, f.isAwait := hinv.tailAwait
  refine ⟨?_, hinv.sumChain.tail, ?_, ?_, hinv.adj.tail, ?_, ?_, hinv.cacheGood,
    hinv.cacheNodup, ?_, by show (1 : Nat) < 1000; omega, lastC_tail hinv.lastC, ?_⟩
  · exact fun f hf => htail f (List.mem_of_mem_tail hf)
  · exact fun f hf => hinv.sumBound f (List.mem_cons_of_mem _ hf)
  · exact fun f hf => hinv.posOK f (List.mem_cons_of_mem _ hf)
  · exact fun f hf => hinv.stored f (List.mem_cons_of_mem _ hf)
  · intro f hf _
    have hadj := (List.chain'_cons'.1 hinv.adj).1 f hf
    have : f.pendingChild = (x, y) := by
      rw [← hadj]; rfl
    rw [this]
    exact (R_base hb).symm
  · exact fun f hf ha => hinv.awaitFresh f (List.mem_cons_of_mem _ hf) ha
  · intro hrest
    subst hrest
    have hco := hinv.lastC (StackState.Initial x y) (by simp)
    have hx0 : x = x0 := congrArg Prod.fst hco
    have hy0 : y = y0 := congrArg Prod.snd hco
    rw [← hx0, ← hy0]
    exact (R_base hb).symm

theorem foo2_inv_step_hit {x0 y0 x y res rv : Nat} {rest : List StackState} {c : Cache}
    (hcg : Cache.get c (x, y) = some res)
    (hinv : Foo2Inv x0 y0 ⟨.Initial x y :: rest, rv, c⟩) :
    Foo2Inv x0 y0 ⟨rest, res, c⟩ := by
  have htail : ∀ f ∈ rest, f.isAwait := hinv.tailAwait
  have hres : res = R x y := hinv.cacheGood _ (Cache.get_mem hcg)
  refine ⟨?_, hinv.sumChain.tail, ?_, ?_, hinv.adj.tail, ?_, ?_, hinv.cacheGood,
    hinv.cacheNodup, ?_, ?_, lastC_tail hinv.lastC, ?_⟩
  · exact fun f hf => htail f (List.mem_of_mem_tail hf)
  · exact fun f hf => hinv.sumBound f (List.mem_cons_of_mem _ hf)
  · exact fun f hf => hinv.posOK f (List.mem_cons_of_mem _ hf)
  · exact fun f hf => hinv.stored f (List.mem_cons_of_mem _ hf)
  · intro f hf _
    have hadj := (List.chain'_cons'.1 hinv.adj).1 f hf
    have hpc : f.pendingChild = (x, y) := by
      rw [← hadj]; rfl
    rw [hpc, hres]
  · exact fun f hf ha => hinv.awaitFresh f (List.mem_cons_of_mem _ hf) ha
  · rw [hres]; exact R_lt x y
  · intro hrest
    subst hrest
    have hco := hinv.lastC (StackState.Initial x y) (by simp)
    have hx0 : x = x0 := congrArg Prod.fst hco
    have hy0 : y = y0 := congrArg Prod.snd hco
    rw [← hx0, ← hy0]
    exact hres

theorem foo2_inv_step_miss {x0 y0 x y rv : Nat} {rest : List StackState} {c : Cache}
    (hb : ¬(x = 0 ∨ y = 0)) (hcg : Cache.get c (x, y) = none)
    (hinv : Foo2Inv x0 y0 ⟨.Initial x y :: rest, rv, c⟩) :
    Foo2Inv x0 y0 ⟨.Initial (x - 1) (y - 1) :: .FirstRec x y :: rest, rv, c⟩ := by
  have hx : 1 ≤ x := by omega
  have hy : 1 ≤ y := by omega
  have htail : ∀ f ∈ rest, f.isAwait := hinv.tailAwait
  have hbound : StackState.fsum (.Initial x y) ≤ x0 + y0 :=
    hinv.sumBound _ (List.mem_cons_self _ _)
  refine ⟨?_, ?_, ?_, ?_, ?_, ?_, ?_, hinv.cacheGood, hinv.cacheNodup, ?_,
    hinv.rvLt, ?_, ?_⟩
  · intro f hf
    rcases List.mem_cons.1 hf with rfl | hf2
    · trivial
    · exact htail f hf2
  · refine chain'_push2 hinv.sumChain ?_ ?_
    · show (x - 1) + (y - 1) < x + y
      omega
    · intro z hz
      exact hz
  · intro f hf
    rcases List.mem_cons.1 hf with rfl | hf2
    · show (x - 1) + (y - 1) ≤ x0 + y0
      have : x + y ≤ x0 + y0 := hbound
      omega
    · rcases List.mem_cons.1 hf2 with rfl | hf3
      · exact hbound
      · exact hinv.sumBound f (List.mem_cons_of_mem _ hf3)
  · intro f hf ha
    rcases List.mem_cons.1 hf with rfl | hf2
    · exact ha.elim
    · rcases List.mem_cons.1 hf2 with rfl | hf3
      · exact ⟨hx, hy⟩
      · exact hinv.posOK f (List.mem_cons_of_mem _ hf3) ha
  · refine chain'_push2 hinv.adj ?_ ?_
    · rfl
    · intro z hz
      exact hz
  · intro f hf
    rcases List.mem_cons.1 hf with rfl | hf2
    · trivial
    · rcases List.mem_cons.1 hf2 with rfl | hf3
      · trivial
      · exact hinv.stored f (List.mem_cons_of_mem _ hf3)
  · intro f hf ha
    simp only [List.head?_cons, Option.mem_def, Option.some.injEq] at hf
    subst hf
    exact ha.elim
  · intro f hf ha
    rcases List.mem_cons.1 hf with rfl | hf2
    · exact ha.elim
    · rcases List.mem_cons.1 hf2 with rfl | hf3
      · exact hcg
      · exact hinv.awaitFresh f (List.mem_cons_of_mem _ hf3) ha
  · exact @lastC_push2 (fun g => g.coords = (x0, y0)) (.Initial x y) _ _ _
      (fun h => h) hinv.lastC
  · intro h
    exact absurd h (List.cons_ne_nil _ _)

theorem foo2_inv_step_first {x0 y0 x y rv : Nat} {rest : List StackState} {c : Cache}
    (hinv : Foo2Inv x0 y0 ⟨.FirstRec x y :: rest, rv, c⟩) :
    Foo2Inv x0 y0 ⟨.Initial x (y - 1) :: .SecondRec x y rv :: rest, rv, c⟩ := by
  have hpos := hinv.posOK _ (List.mem_cons_self _ _) trivial
  have hx : 1 ≤ x := hpos.1
  have hy : 1 ≤ y := hpos.2
  have hrv : rv = R (x - 1) (y - 1) := hinv.rvHead (.FirstRec x y) rfl trivial
  have htail : ∀ f ∈ rest, f.isAwait := hinv.tailAwait
  have hbound : StackState.fsum (.FirstRec x y) ≤ x0 + y0 :=
    hinv.sumBound _ (List.mem_cons_self _ _)
  have hfresh : Cache.get c (x, y) = none :=
    hinv.awaitFresh _ (List.mem_cons_self _ _) trivial
  refine ⟨?_, ?_, ?_, ?_, ?_, ?_, ?_, hinv.cacheGood, hinv.cacheNodup, ?_,
    hinv.rvLt, ?_, ?_⟩
  · intro f hf
    rcases List.mem_cons.1 hf with rfl | hf2
    · trivial
    · exact htail f hf2
  · refine chain'_push2 hinv.sumChain ?_ ?_
    · show x + (y - 1) < x + y
      omega
    · intro z hz
      exact hz
  · intro f hf
    rcases List.mem_cons.1 hf with rfl | hf2
    · show x + (y - 1) ≤ x0 + y0
      have : x + y ≤ x0 + y0 := hbound
      omega
    · rcases List.mem_cons.1 hf2 with rfl | hf3
      · exact hbound
      · exact hinv.sumBound f (List.mem_cons_of_mem _ hf3)
  · intro f hf ha
    rcases List.mem_cons.1 hf with rfl | hf2
    · exact ha.elim
    · rcases List.mem_cons.1 hf2 with rfl | hf3
      · exact ⟨hx, hy⟩
      · exact hinv.posOK f (List.mem_cons_of_mem _ hf3) ha
  · refine chain'_push2 hinv.adj ?_ ?_
    · rfl
    · intro z hz
      exact hz
  · intro f hf
    rcases List.mem_cons.1 hf with rfl | hf2
    · trivial
    · rcases List.mem_cons.1 hf2 with rfl | hf3
      · exact hrv
      · exact hinv.stored f (List.mem_cons_of_mem _ hf3)
  · intro f hf ha
    simp only [List.head?_cons, Option.mem_def, Option.some.injEq] at hf
    subst hf
    exact ha.elim
  · intro f hf ha
    rcases List.mem_cons.1 hf with rfl | hf2
    · exact ha.elim
    · rcases List.mem_cons.1 hf2 with rfl | hf3
      · exact hfresh
      · exact hinv.awaitFresh f (List.mem_cons_of_mem _ hf3) ha
  · exact @lastC_push2 (fun g => g.coords = (x0, y0)) (.FirstRec x y) _ _ _
      (fun h => h) hinv.lastC
  · intro h
    exact absurd h (List.cons_ne_nil _ _)

theorem foo2_inv_step_second {x0 y0 x y r1 rv : Nat} {rest : List StackState} {c : Cache}
    (hinv : Foo2Inv x0 y0 ⟨.SecondRec x y r1 :: rest, rv, c⟩) :
    Foo2Inv x0 y0 ⟨.Initial (x - 1) y :: .ThirdRec x y r1 rv :: rest, rv, c⟩ := by
  have hpos := hinv.posOK _ (List.mem_cons_self _ _) trivial
  have hx : 1 ≤ x := hpos.1
  have hy : 1 ≤ y := hpos.2
  have hrv : rv = R x (y - 1) := hinv.rvHead (.SecondRec x y r1) rfl trivial
  have hr1 : r1 = R (x - 1) (y - 1) := hinv.stored _ (List.mem_cons_self _ _)
  have htail : ∀ f ∈ rest, f.isAwait := hinv.tailAwait
  have hbound : StackState.fsum (.SecondRec x y r1) ≤ x0 + y0 :=
    hinv.sumBound _ (List.mem_cons_self _ _)
  have hfresh : Cache.get c (x, y) = none :=
    hinv.awaitFresh _ (List.mem_cons_self _ _) trivial
  refine ⟨?_, ?_, ?_, ?_, ?_, ?_, ?_, hinv.cacheGood, hinv.cacheNodup, ?_,
    hinv.rvLt, ?_, ?_⟩
  · intro f hf
    rcases List.mem_cons.1 hf with rfl | hf2
    · trivial
    · exact htail f hf2
  · refine chain'_push2 hinv.sumChain ?_ ?_
    · show (x - 1) + y < x + y
      omega
    · intro z hz
      exact hz
  · intro f hf
    rcases List.mem_cons.1 hf with rfl | hf2
    · show (x - 1) + y ≤ x0 + y0
      have : x + y ≤ x0 + y0 := hbound
      omega
    · rcases List.mem_cons.1 hf2 with rfl | hf3
      · exact hbound
      · exact hinv.sumBound f (List.mem_cons_of_mem _ hf3)
  · intro f hf ha
    rcases List.mem_cons.1 hf with rfl | hf2
    · exact ha.elim
    · rcases List.mem_cons.1 hf2 with rfl | hf3
      · exact ⟨hx, hy⟩
      · exact hinv.posOK f (List.mem_cons_of_mem _ hf3) ha
  · refine chain'_push2 hinv.adj ?_ ?_
    · rfl
    · intro z hz
      exact hz
  · intro f hf
    rcases List.mem_cons.1 hf with rfl | hf2
    · trivial
    · rcases List.mem_cons.1 hf2 with rfl | hf3
      · exact ⟨hr1, hrv⟩
      · exact hinv.stored f (List.mem_cons_of_mem _ hf3)
  · intro f hf ha
    simp only [List.head?_cons, Option.mem_def, Option.some.injEq] at hf
    subst hf
    exact ha.elim
  · intro f hf ha
    rcases List.mem_cons.1 hf with rfl | hf2
    · exact ha.elim
    · rcases List.mem_cons.1 hf2 with rfl | hf3
      · exact hfresh
      · exact hinv.awaitFresh f (List.mem_cons_of_mem _ hf3) ha
  · exact @lastC_push2 (fun g => g.coords = (x0, y0)) (.SecondRec x y r1) _ _ _
      (fun h => h) hinv.lastC
  · intro h
    exact absurd h (List.cons_ne_nil _ _)

theorem foo2_inv_step_third {x0 y0 x y r1 r2 rv : Nat} {rest : List StackState} {c : Cache}
    (hinv : Foo2Inv x0 y0 ⟨.ThirdRec x y r1 r2 :: rest, rv, c⟩) :
    Foo2Inv x0 y0 ⟨rest, (r1 + r2 + rv) % 1000,
      Cache.insert c (x, y) ((r1 + r2 + rv) % 1000)⟩ := by
  have hpos := hinv.posOK _ (List.mem_cons_self _ _) trivial
  have hx : 1 ≤ x := hpos.1
  have hy : 1 ≤ y := hpos.2
  have hrv : rv = R (x - 1) y := hinv.rvHead (.ThirdRec x y r1 r2) rfl trivial
  have hstored : r1 = R (x - 1) (y - 1) ∧ r2 = R x (y - 1) :=
    hinv.stored _ (List.mem_cons_self _ _)
  have htr : (r1 + r2 + rv) % 1000 = R x y := by
    rw [hstored.1, hstored.2, hrv, ← R_rec hx hy]
  have hfresh : Cache.get c (x, y) = none :=
    hinv.awaitFresh _ (List.mem_cons_self _ _) trivial
  have htail : ∀ f ∈ rest, f.isAwait := hinv.tailAwait
  have htrans : IsTrans StackState (fun a b => StackState.fsum a < StackState.fsum b) :=
    ⟨fun a b d h1 h2 => Nat.lt_trans h1 h2⟩
  have hpw := (@List.chain'_iff_pairwise _ _ htrans _).1 hinv.sumChain
  have hgt : ∀ g ∈ rest, StackState.fsum (.ThirdRec x y r1 r2) < g.fsum :=
    (List.pairwise_cons.1 hpw).1
  have hne : ∀ g ∈ rest, g.coords ≠ (x, y) := by
    intro g hg hco
    have h1 := hgt g hg
    have h2 : g.fsum = x + y := by
      show g.coords.1 + g.coords.2 = x + y
      rw [hco]
    have h3 : StackState.fsum (.ThirdRec x y r1 r2) = x + y := rfl
    omega
  refine ⟨?_, hinv.sumChain.tail, ?_, ?_, hinv.adj.tail, ?_, ?_, ?_, ?_, ?_, ?_,
    lastC_tail hinv.lastC, ?_⟩
  · exact fun f hf => htail f (List.mem_of_mem_tail hf)
  · exact fun f hf => hinv.sumBound f (List.mem_cons_of_mem _ hf)
  · exact fun f hf => hinv.posOK f (List.mem_cons_of_mem _ hf)
  · exact fun f hf => hinv.stored f (List.mem_cons_of_mem _ hf)
  · intro f hf _
    have hadj := (List.chain'_cons'.1 hinv.adj).1 f hf
    have hpc : f.pendingChild = (x, y) := by
      rw [← hadj]; rfl
    rw [hpc, htr]
  · exact GoodC.insert hinv.cacheGood htr
  · rw [ckeys_insert]
    exact List.nodup_cons.2 ⟨Cache.get_eq_none.1 hfresh, hinv.cacheNodup⟩
  · intro f hf ha
    rw [Cache.get_insert_ne (fun hco => hne f hf hco.symm)]
    exact hinv.awaitFresh f (List.mem_cons_of_mem _ hf) ha
  · exact Nat.mod_lt _ (by omega)
  · intro hrest
    subst hrest
    have hco := hinv.lastC (StackState.ThirdRec x y r1 r2) (by simp)
    have hx0 : x = x0 := congrArg Prod.fst hco
    have hy0 : y = y0 := congrArg Prod.snd hco
    rw [← hx0, ← hy0]
    exact htr

/-- The invariant is preserved by one iteration of the dispatch loop. -/
theorem foo2_inv_step {x0 y0 : Nat} {s s2 : Foo2State}
    (hinv : Foo2Inv x0 y0 s) (h : foo2_step s = some s2) : Foo2Inv x0 y0 s2 := by
  obtain ⟨stack, rv, c⟩ := s
  cases stack with
  | nil => simp [foo2_step] at h
  | cons f rest =>
    cases f with
    | Initial x y =>
      by_cases hb : x = 0 ∨ y = 0
      · rw [foo2_step_base hb] at h
        injection h with h
        subst h
        exact foo2_inv_step_base hb hinv
      · cases hcg : Cache.get c (x, y) with
        | some res =>
          rw [foo2_step_hit hb hcg] at h
          injection h with h
          subst h
          exact foo2_inv_step_hit hcg hinv
        | none =>
          rw [foo2_step_miss hb hcg] at h
          injection h with h
          subst h
          exact foo2_inv_step_miss hb hcg hinv
    | FirstRec x y =>
      rw [foo2_step_first] at h
      injection h with h
      subst h
      exact foo2_inv_step_first hinv
    | SecondRec x y r1 =>
      rw [foo2_step_second] at h
      injection h with h
      subst h
      exact foo2_inv_step_second hinv
    | ThirdRec x y r1 r2 =>
      rw [foo2_step_third] at h
      injection h with h
      subst h
      exact foo2_inv_step_third hinv

/-- The invariant holds in the initial state of `foo2 x y`. -/
theorem foo2_inv_init (x y : Nat) : Foo2Inv x y (foo2_init x y) := by
  refine ⟨?_, ?_, ?_, ?_, ?_, ?_, ?_, ?_, ?_, ?_, ?_, ?_, ?_⟩
  · intro f hf
    simp [foo2_init] at hf
  · exact List.chain'_singleton _
  · intro f hf
    simp only [foo2_init, List.mem_singleton] at hf
    subst hf
    exact le_rfl
  · intro f hf ha
    simp only [foo2_init, List.mem_singleton] at hf
    subst hf
    exact ha.elim
  · exact List.chain'_singleton _
  · intro f hf
    simp only [foo2_init, List.mem_singleton] at hf
    subst hf
    trivial
  · intro f hf ha
    simp only [foo2_init, List.head?_cons, Option.mem_def, Option.some.injEq] at hf
    subst hf
    exact ha.elim
  · intro e he
    cases he
  · exact List.nodup_nil
  · intro f hf ha
    simp only [foo2_init, List.mem_singleton] at hf
    subst hf
    exact ha.elim
  · show (0 : Nat) < 1000
    omega
  · intro f hf
    simp only [foo2_init, List.getLast?_singleton, Option.mem_def, Option.some.injEq] at hf
    subst hf
    rfl
  · intro h
    simp [foo2_init] at h

/-- The invariant holds in every reachable state of the dispatch loop. -/
theorem foo2_inv_run {x0 y0 : Nat} {s : Foo2State} (hinv : Foo2Inv x0 y0 s) :
    ∀ n, Foo2Inv x0 y0 (foo2_run n s) := by
  intro n
  induction n generalizing s with
  | zero => exact hinv
  | succ n ih =>
    rw [foo2_run]
    cases h : foo2_step s with
    | none => exact hinv
    | some s2 => exact ih (foo2_inv_step hinv h)

theorem length_le_of_pairwise {l : List Nat} {b : Nat}
    (hc : List.Pairwise (fun a d => a < d) l) (hb : ∀ a ∈ l, a ≤ b) :
    l.length ≤ b + 1 := by
  have hnd : l.Nodup := hc.nodup
  have hcard : l.toFinset.card = l.length := List.toFinset_card_of_nodup hnd
  have hsub : l.toFinset ⊆ Finset.range (b + 1) := by
    intro a ha
    rw [List.mem_toFinset] at ha
    rw [Finset.mem_range]
    exact Nat.lt_succ_of_le (hb a ha)
  calc l.length = l.toFinset.card := hcard.symm
  _ ≤ (Finset.range (b + 1)).card := Finset.card_le_card hsub
  _ = b + 1 := Finset.card_range _

/-- In any state satisfying the invariant, the explicit stack holds at most
`x + y + 1` frames. -/
theorem foo2_stack_bound {x y : Nat} {s : Foo2State} (hinv : Foo2Inv x y s) :
    s.stack.length ≤ x + y + 1 := by
  have htrans : IsTrans StackState (fun a b => StackState.fsum a < StackState.fsum b) :=
    ⟨fun a b d h1 h2 => Nat.lt_trans h1 h2⟩
  have hpw := (@List.chain'_iff_pairwise _ _ htrans _).1 hinv.sumChain
  have hmap : List.Pairwise (fun a d => a < d) (s.stack.map StackState.fsum) :=
    List.pairwise_map.2 hpw
  have hb : ∀ a ∈ s.stack.map StackState.fsum, a ≤ x + y := by
    intro a ha
    rw [List.mem_map] at ha
    obtain ⟨f, hf, rfl⟩ := ha
    exact hinv.sumBound f hf
  have hlen := length_le_of_pairwise hmap hb
  rw [List.length_map] at hlen
  exact hlen

/-- The dispatch loop of `foo2 x y` empties its stack within
`4 ^ (x + y + 1)` iterations, with the recurrence value in the return
channel. -/
theorem foo2_done (x y : Nat) : ∃ n, n ≤ 4 ^ (x + y + 1) ∧
    (foo2_run n (foo2_init x y)).stack = [] ∧
    (foo2_run n (foo2_init x y)).rv = R x y := by
  obtain ⟨n, rv2, c2, hp, hb, hrun⟩ := foo2_term (x + y) x y le_rfl [] 0 []
  have hrun2 : foo2_run n (foo2_init x y) = ⟨[], rv2, c2⟩ := hrun
  have hinv := foo2_inv_run (foo2_inv_init x y) n
  rw [hrun2] at hinv
  have hrv : rv2 = R x y := hinv.emptyRv rfl
  exact ⟨n, hb, by rw [hrun2], by rw [hrun2]; exact hrv⟩

theorem foo2_eq_R (x y : Nat) : foo2 x y = R x y := by
  obtain ⟨n, hb, hstk, hrv⟩ := foo2_done x y
  have hsplit : 4 ^ (x + y + 1) = n + (4 ^ (x + y + 1) - n) := by omega
  rw [foo2, hsplit, foo2_run_add, foo2_run_empty hstk, hrv]

/-! ## Engine 4: `foo4`, bottom-up tabulation

The Rust `vec![1; (x+1)*(y+1)]` table is modelled as a `List Nat` indexed
by `i + j*(x+1)`; reads are `List.getD _ 0` and writes are `List.set`,
matching in-bounds indexing.  The `for i in 1..sum` loop with its `break`
and `continue` statements is modelled by structural recursion on the number
of remaining iterations. -/

/-- The body of the inner loop of `foo4`: one cell update. -/
def foo4_body (x i j : Nat) (r : List Nat) : List Nat :=
  r.set (i + j * (x + 1))
    ((r.getD ((i - 1) + (j - 1) * (x + 1)) 0
      + r.getD (i + (j - 1) * (x + 1)) 0
      + r.getD ((i - 1) + j * (x + 1)) 0) % 1000)

/-- The inner `for i in 1..sum` loop of `foo4`, starting at `i` with `k`
iterations remaining: `if i > x break`, `let j = sum - i`,
`if j > y continue`, `if j < 1 break`, else update cell `(i, j)`. -/
def foo4_inner (x y sum : Nat) : Nat → Nat → List Nat → List Nat
  | 0, _, r => r
  | k + 1, i, r =>
    if i > x then r
    else
      if sum - i > y then foo4_inner x y sum k (i + 1) r
      else
        if sum - i < 1 then r
        else foo4_inner x y sum k (i + 1) (foo4_body x i (sum - i) r)

/-- The outer `for sum in 2..(x+y+1)` loop of `foo4`, starting at `sum`
with `k` iterations remaining. -/
def foo4_outer (x y : Nat) : Nat → Nat → List Nat → List Nat
  | 0, _, r => r
  | k + 1, sum, r => foo4_outer x y k (sum + 1) (foo4_inner x y sum (sum - 1) 1 r)

/-- Embeds `foo4`: allocate the all-ones table, run the anti-diagonal fill,
read off cell `(x, y)`. -/
def foo4 (x y : Nat) : Nat :=
  (foo4_outer x y (x + y + 1 - 2) 2
    (List.replicate ((x + 1) * (y + 1)) 1)).getD (x + y * (x + 1)) 0

theorem idx_lt {x y a b : Nat} (ha : a ≤ x) (hb : b ≤ y) :
    a + b * (x + 1) < (x + 1) * (y + 1) := by
  have h1 : b * (x + 1) ≤ y * (x + 1) := Nat.mul_le_mul_right _ hb
  have h2 : (x + 1) * (y + 1) = y * (x + 1) + (x + 1) := by ring
  omega

theorem idx_inj {x a b a2 b2 : Nat} (ha : a ≤ x) (ha2 : a2 ≤ x)
    (h : a + b * (x + 1) = a2 + b2 * (x + 1)) : a = a2 ∧ b = b2 := by
  have hm1 : (a + b * (x + 1)) % (x + 1) = a := by
    rw [Nat.add_mul_mod_self_right, Nat.mod_eq_of_lt (by omega)]
  have hm2 : (a2 + b2 * (x + 1)) % (x + 1) = a2 := by
    rw [Nat.add_mul_mod_self_right, Nat.mod_eq_of_lt (by omega)]
  have haa : a = a2 := by rw [← hm1, ← hm2, h]
  refine ⟨haa, ?_⟩
  have hbb : b * (x + 1) = b2 * (x + 1) := by omega
  exact Nat.eq_of_mul_eq_mul_right (by omega) hbb

theorem getD_set_self {r : List Nat} {idx v : Nat} (h : idx < r.length) :
    (r.set idx v).getD idx 0 = v := by
  rw [List.getD_eq_getElem?_getD, List.getElem?_set_self h]
  rfl

theorem getD_set_ne {r : List Nat} {idx idx2 v : Nat} (h : idx ≠ idx2) :
    (r.set idx v).getD idx2 0 = r.getD idx2 0 := by
  rw [List.getD_eq_getElem?_getD, List.getElem?_set_ne h, ← List.getD_eq_getElem?_getD]

/-- Table invariant while the inner loop of `foo4` is part-way through
anti-diagonal `sum`, about to process column `i`: every cell in range holds
its recurrence value if it lies on an earlier diagonal, earlier on this
diagonal, or on the base boundary, and still holds the initial 1
otherwise. -/
def tblInvMid (x y sum i : Nat) (r : List Nat) : Prop :=
  r.length = (x + 1) * (y + 1) ∧
  ∀ a b : Nat, a ≤ x → b ≤ y →
    r.getD (a + b * (x + 1)) 0 =
      if a + b < sum ∨ (a + b = sum ∧ a < i) ∨ a = 0 ∨ b = 0 then R a b else 1

/-- Table invariant between outer-loop iterations of `foo4`: all diagonals
up to `s` are filled in. -/
def tblInv (x y s : Nat) (r : List Nat) : Prop :=
  r.length = (x + 1) * (y + 1) ∧
  ∀ a b : Nat, a ≤ x → b ≤ y →
    r.getD (a + b * (x + 1)) 0 =
      if a + b ≤ s ∨ a = 0 ∨ b = 0 then R a b else 1

theorem foo4_inner_inv (x y sum : Nat) : ∀ k i r, i + k = sum → 1 ≤ i →
    tblInvMid x y sum i r → tblInv x y sum (foo4_inner x y sum k i r) := by
  intro k
  induction k with
  | zero =>
    intro i r hik hi hmid
    simp only [foo4_inner]
    refine ⟨hmid.1, ?_⟩
    intro a b ha hb
    rw [hmid.2 a b ha hb]
    refine if_congr ?_ rfl rfl
    constructor
    · intro h; omega
    · intro h; omega
  | succ k ih =>
    intro i r hik hi hmid
    simp only [foo4_inner]
    split
    · next h1 =>
      refine ⟨hmid.1, ?_⟩
      intro a b ha hb
      rw [hmid.2 a b ha hb]
      refine if_congr ?_ rfl rfl
      constructor
      · intro h; omega
      · intro h; omega
    · next h1 =>
      split
      · next h2 =>
        refine ih (i + 1) r (by omega) (by omega) ⟨hmid.1, ?_⟩
        intro a b ha hb
        rw [hmid.2 a b ha hb]
        refine if_congr ?_ rfl rfl
        constructor
        · intro h; omega
        · intro h; omega
      · next h2 =>
        split
        · next h3 => exact absurd h3 (by omega)
        · next h3 =>
          have hix : i ≤ x := by omega
          have hjy : sum - i ≤ y := by omega
          have hj1 : 1 ≤ sum - i := by omega
          have hlen : r.length = (x + 1) * (y + 1) := hmid.1
          have g1 : r.getD ((i - 1) + ((sum - i) - 1) * (x + 1)) 0 = R (i - 1) ((sum - i) - 1) := by
            rw [hmid.2 (i - 1) ((sum - i) - 1) (by omega) (by omega), if_pos (by omega)]
          have g2 : r.getD (i + ((sum - i) - 1) * (x + 1)) 0 = R i ((sum - i) - 1) := by
            rw [hmid.2 i ((sum - i) - 1) (by omega) (by omega), if_pos (by omega)]
          have g3 : r.getD ((i - 1) + (sum - i) * (x + 1)) 0 = R (i - 1) (sum - i) := by
            rw [hmid.2 (i - 1) (sum - i) (by omega) (by omega), if_pos (by omega)]
          have hval : (r.getD ((i - 1) + ((sum - i) - 1) * (x + 1)) 0
              + r.getD (i + ((sum - i) - 1) * (x + 1)) 0
              + r.getD ((i - 1) + (sum - i) * (x + 1)) 0) % 1000 = R i (sum - i) := by
            rw [g1, g2, g3, ← R_rec (by omega) (by omega)]
          refine ih (i + 1) _ (by omega) (by omega) ⟨?_, ?_⟩
          · rw [foo4_body, List.length_set]
            exact hlen
          · intro a b ha hb
            by_cases hab : a = i ∧ b = sum - i
            · obtain ⟨rfl, rfl⟩ := hab
              rw [foo4_body]
              rw [getD_set_self (by rw [hlen]; exact idx_lt ha hb)]
              rw [hval, if_pos (by omega)]
            · have hneidx : a + b * (x + 1) ≠ i + (sum - i) * (x + 1) := by
                intro heq
                obtain ⟨he1, he2⟩ := idx_inj ha hix heq
                exact hab ⟨he1, he2⟩
              rw [foo4_body, getD_set_ne (fun h => hneidx h.symm)]
              rw [hmid.2 a b ha hb]
              refine if_congr ?_ rfl rfl
              constructor
              · intro h; omega
              · intro h; omega

theorem foo4_outer_inv (x y : Nat) : ∀ k sum r, 1 ≤ sum → sum + k = x + y + 1 →
    tblInv x y (sum - 1) r → tblInv x y (x + y) (foo4_outer x y k sum r) := by
  intro k
  induction k with
  | zero =>
    intro sum r h1 hk hinv
    have hsum : sum - 1 = x + y := by omega
    rw [hsum] at hinv
    exact hinv
  | succ k ih =>
    intro sum r h1 hk hinv
    simp only [foo4_outer]
    have hmid : tblInvMid x y sum 1 r := by
      refine ⟨hinv.1, ?_⟩
      intro a b ha hb
      rw [hinv.2 a b ha hb]
      refine if_congr ?_ rfl rfl
      constructor
      · intro h; omega
      · intro h; omega
    have hstep := foo4_inner_inv x y sum (sum - 1) 1 r (by omega) le_rfl hmid
    have hstep2 : tblInv x y (sum + 1 - 1) (foo4_inner x y sum (sum - 1) 1 r) := by
      rw [show sum + 1 - 1 = sum from by omega]
      exact hstep
    exact ih (sum + 1) _ (by omega) (by omega) hstep2

theorem foo4_eq_R (x y : Nat) : foo4 x y = R x y := by
  have hinit : tblInv x y 1 (List.replicate ((x + 1) * (y + 1)) 1) := by
    refine ⟨List.length_replicate _ _, ?_⟩
    intro a b ha hb
    have hidx : a + b * (x + 1) < (x + 1) * (y + 1) := idx_lt ha hb
    have hrep : (List.replicate ((x + 1) * (y + 1)) 1).getD (a + b * (x + 1)) 0 = 1 := by
      rw [List.getD_eq_getElem?_getD, List.getElem?_replicate, if_pos hidx]
      rfl
    rw [hrep]
    split
    · next hcond => exact (R_base (by omega)).symm
    · rfl
  by_cases hxy : x + y = 0
  · have hx : x = 0 := by omega
    have hy : y = 0 := by omega
    subst hx
    subst hy
    rw [R_base (Or.inl rfl)]
    decide
  · have houter := foo4_outer_inv x y (x + y + 1 - 2) 2
      (List.replicate ((x + 1) * (y + 1)) 1) (by omega) (by omega) hinit
    rw [foo4]
    rw [houter.2 x y le_rfl le_rfl, if_pos (by omega)]

/-! ## Checked subtraction: no `u32` subtraction underflows

`csub` returns `none` exactly when a Rust debug-build subtraction would
panic on underflow.  Each engine gets a checked variant in which every
source-level subtraction goes through `csub`; proving it equal to
`some` of the unchecked engine shows no subtraction ever underflows. -/

/-- Checked unsigned subtraction. -/
def csub (a b : Nat) : Option Nat := if b ≤ a then some (a - b) else none

theorem csub_some {a b v : Nat} (h : csub a b = some v) : b ≤ a ∧ v = a - b := by
  unfold csub at h
  split at h
  · next hle =>
    injection h with h
    exact ⟨hle, h.symm⟩
  · cases h

theorem csub_of_le {a b : Nat} (h : b ≤ a) : csub a b = some (a - b) := by
  unfold csub
  rw [if_pos h]

/-- Checked variant of `foo1_helper`. -/
def foo1C_helper (x y : Nat) (cache : Cache) : Option (Nat × Cache) :=
  if x = 0 ∨ y = 0 then some (1, cache)
  else
    match Cache.get cache (x, y) with
    | some res => some (res, cache)
    | none =>
      match hx1 : csub x 1, hy1 : csub y 1 with
      | some x1, some y1 =>
        match foo1C_helper x1 y1 cache with
        | none => none
        | some p1 =>
          match foo1C_helper x y1 p1.2 with
          | none => none
          | some p2 =>
            match foo1C_helper x1 y p2.2 with
            | none => none
            | some p3 =>
              let tr := (p1.1 + p2.1 + p3.1) % 1000
              some (tr, Cache.insert p3.2 (x, y) tr)
      | _, _ => none
termination_by x + y
decreasing_by
  all_goals obtain ⟨ha1, rfl⟩ := csub_some hx1
  all_goals obtain ⟨hb1, rfl⟩ := csub_some hy1
  all_goals omega

/-- Checked variant of `foo1`. -/
def foo1C (x y : Nat) : Option Nat := (foo1C_helper x y []).map Prod.fst

theorem foo1C_helper_eq : ∀ s x y, x + y ≤ s → ∀ c : Cache,
    foo1C_helper x y c = some (foo1_helper x y c) := by
  intro s
  induction s with
  | zero =>
    intro x y hs c
    have hb : x = 0 ∨ y = 0 := by omega
    rw [foo1C_helper, if_pos hb, foo1_helper_base c hb]
  | succ s ih =>
    intro x y hs c
    by_cases hb : x = 0 ∨ y = 0
    · rw [foo1C_helper, if_pos hb, foo1_helper_base c hb]
    · have hx : 1 ≤ x := by omega
      have hy : 1 ≤ y := by omega
      cases hcg : Cache.get c (x, y) with
      | some res =>
        rw [foo1C_helper, if_neg hb, hcg, foo1_helper_hit hb hcg]
      | none =>
        rw [foo1C_helper, if_neg hb, hcg, foo1_helper_miss hb hcg]
        dsimp only
        split
        · next x1 y1 hx1 hy1 =>
          obtain ⟨-, rfl⟩ := csub_some hx1
          obtain ⟨-, rfl⟩ := csub_some hy1
          rw [ih (x - 1) (y - 1) (by omega) c]
          dsimp only
          rw [ih x (y - 1) (by omega) (foo1_helper (x - 1) (y - 1) c).2]
          dsimp only
          rw [ih (x - 1) y (by omega) (foo1_helper x (y - 1) (foo1_helper (x - 1) (y - 1) c).2).2]
        · next hno =>
          exact (hno (x - 1) (y - 1) (csub_of_le hx) (csub_of_le hy)).elim

theorem foo3_helper_base {x y : Nat} (c : Cache) (h : x = 0 ∨ y = 0) :
    foo3_helper x y c = (1, c) := by
  rw [foo3_helper, if_pos h]

theorem foo3_helper_hit {x y res : Nat} {c : Cache} (h : ¬(x = 0 ∨ y = 0))
    (hc : Cache.get c (x, y) = some res) : foo3_helper x y c = (res, c) := by
  rw [foo3_helper, if_neg h, hc]

theorem foo3_helper_miss {x y : Nat} {c : Cache} (h : ¬(x = 0 ∨ y = 0))
    (hc : Cache.get c (x, y) = none) :
    foo3_helper x y c =
      let p1 := foo3_helper (x - 1) (y - 1) c
      let p2 := foo3_helper x (y - 1) p1.2
      let p3 := foo3_helper (x - 1) y p2.2
      let tr := (p1.1 + p2.1 + p3.1) % 1000
      (tr, Cache.insert p3.2 (x, y) tr) := by
  rw [foo3_helper, if_neg h, hc]

/-- Checked variant of `foo3_helper`. -/
def foo3C_helper (x y : Nat) (cache : Cache) : Option (Nat × Cache) :=
  if x = 0 ∨ y = 0 then some (1, cache)
  else
    match Cache.get cache (x, y) with
    | some res => some (res, cache)
    | none =>
      match hx1 : csub x 1, hy1 : csub y 1 with
      | some x1, some y1 =>
        match foo3C_helper x1 y1 cache with
        | none => none
        | some p1 =>
          match foo3C_helper x y1 p1.2 with
          | none => none
          | some p2 =>
            match foo3C_helper x1 y p2.2 with
            | none => none
            | some p3 =>
              let tr := (p1.1 + p2.1 + p3.1) % 1000
              some (tr, Cache.insert p3.2 (x, y) tr)
      | _, _ => none
termination_by x + y
decreasing_by
  all_goals obtain ⟨ha1, rfl⟩ := csub_some hx1
  all_goals obtain ⟨hb1, rfl⟩ := csub_some hy1
  all_goals omega

/-- Checked variant of `foo3`. -/
def foo3C (x y : Nat) : Option Nat := (foo3C_helper x y []).map Prod.fst

theorem foo3C_helper_eq : ∀ s x y, x + y ≤ s → ∀ c : Cache,
    foo3C_helper x y c = some (foo3_helper x y c) := by
  intro s
  induction s with
  | zero =>
    intro x y hs c
    have hb : x = 0 ∨ y = 0 := by omega
    rw [foo3C_helper, if_pos hb, foo3_helper_base c hb]
  | succ s ih =>
    intro x y hs c
    by_cases hb : x = 0 ∨ y = 0
    · rw [foo3C_helper, if_pos hb, foo3_helper_base c hb]
    · have hx : 1 ≤ x := by omega
      have hy : 1 ≤ y := by omega
      cases hcg : Cache.get c (x, y) with
      | some res =>
        rw [foo3C_helper, if_neg hb, hcg, foo3_helper_hit hb hcg]
      | none =>
        rw [foo3C_helper, if_neg hb, hcg, foo3_helper_miss hb hcg]
        dsimp only
        split
        · next x1 y1 hx1 hy1 =>
          obtain ⟨-, rfl⟩ := csub_some hx1
          obtain ⟨-, rfl⟩ := csub_some hy1
          rw [ih (x - 1) (y - 1) (by omega) c]
          dsimp only
          rw [ih x (y - 1) (by omega) (foo3_helper (x - 1) (y - 1) c).2]
          dsimp only
          rw [ih (x - 1) y (by omega) (foo3_helper x (y - 1) (foo3_helper (x - 1) (y - 1) c).2).2]
        · next hno =>
          exact (hno (x - 1) (y - 1) (csub_of_le hx) (csub_of_le hy)).elim

/-- Checked variant of one `foo2` loop iteration: the outer `none` models an
underflow panic, `some none` means the loop ended. -/
def foo2_stepC (s : Foo2State) : Option (Option Foo2State) :=
  match s.stack with
  | [] => some none
  | st :: rest =>
    match st with
    | .Initial x y =>
      if x = 0 ∨ y = 0 then some (some ⟨rest, 1, s.cache⟩)
      else
        match Cache.get s.cache (x, y) with
        | some res => some (some ⟨rest, res, s.cache⟩)
        | none =>
          match csub x 1, csub y 1 with
          | some x1, some y1 =>
            some (some ⟨.Initial x1 y1 :: .FirstRec x y :: rest, s.rv, s.cache⟩)
          | _, _ => none
    | .FirstRec x y =>
      match csub y 1 with
      | some y1 =>
        some (some ⟨.Initial x y1 :: .SecondRec x y s.rv :: rest, s.rv, s.cache⟩)
      | none => none
    | .SecondRec x y res1 =>
      match csub x 1 with
      | some x1 =>
        some (some ⟨.Initial x1 y :: .ThirdRec x y res1 s.rv :: rest, s.rv, s.cache⟩)
      | none => none
    | .ThirdRec x y res1 res2 =>
      some (some ⟨rest, (res1 + res2 + s.rv) % 1000,
        Cache.insert s.cache (x, y) ((res1 + res2 + s.rv) % 1000)⟩)

/-- Checked variant of the `foo2` dispatch loop. -/
def foo2_runC : Nat → Foo2State → Option Foo2State
  | 0, s => some s
  | n + 1, s =>
    match foo2_stepC s with
    | none => none
    | some none => some s
    | some (some s2) => foo2_runC n s2

/-- In every state reachable by `foo2`, the checked step never underflows
and agrees with the unchecked step. -/
theorem foo2_stepC_eq {x0 y0 : Nat} {s : Foo2State} (hinv : Foo2Inv x0 y0 s) :
    foo2_stepC s = some (foo2_step s) := by
  obtain ⟨stack, rv, c⟩ := s
  cases stack with
  | nil => rfl
  | cons f rest =>
    cases f with
    | Initial x y =>
      by_cases hb : x = 0 ∨ y = 0
      · rw [foo2_step_base hb]
        simp only [foo2_stepC]
        rw [if_pos hb]
      · cases hcg : Cache.get c (x, y) with
        | some res =>
          rw [foo2_step_hit hb hcg]
          simp only [foo2_stepC]
          rw [if_neg hb, hcg]
        | none =>
          rw [foo2_step_miss hb hcg]
          simp only [foo2_stepC]
          rw [if_neg hb, hcg, csub_of_le (show 1 ≤ x by omega),
            csub_of_le (show 1 ≤ y by omega)]
    | FirstRec x y =>
      have hy : 1 ≤ y := (hinv.posOK _ (List.mem_cons_self _ _) trivial).2
      rw [foo2_step_first]
      simp only [foo2_stepC]
      rw [csub_of_le hy]
    | SecondRec x y r1 =>
      have hx : 1 ≤ x := (hinv.posOK _ (List.mem_cons_self _ _) trivial).1
      rw [foo2_step_second]
      simp only [foo2_stepC]
      rw [csub_of_le hx]
    | ThirdRec x y r1 r2 => rfl

/-- In every state satisfying the invariant, the checked dispatch loop
never underflows and agrees with the unchecked loop. -/
theorem foo2_runC_eq {x0 y0 : Nat} : ∀ n, ∀ {s : Foo2State}, Foo2Inv x0 y0 s →
    foo2_runC n s = some (foo2_run n s) := by
  intro n
  induction n with
  | zero => intro s _; rfl
  | succ n ih =>
    intro s hinv
    rw [foo2_runC, foo2_run, foo2_stepC_eq hinv]
    cases h : foo2_step s with
    | none => rfl
    | some s2 =>
      dsimp only
      exact ih (foo2_inv_step hinv h)

/-- Checked variant of the `foo4` cell update. -/
def foo4_bodyC (x i j : Nat) (r : List Nat) : Option (List Nat) :=
  match csub i 1, csub j 1 with
  | some i1, some j1 =>
    some (r.set (i + j * (x + 1))
      ((r.getD (i1 + j1 * (x + 1)) 0
        + r.getD (i + j1 * (x + 1)) 0
        + r.getD (i1 + j * (x + 1)) 0) % 1000))
  | _, _ => none

/-- Checked variant of the inner loop of `foo4`: the computation of
`j = sum - i` also goes through `csub`. -/
def foo4_innerC (x y sum : Nat) : Nat → Nat → List Nat → Option (List Nat)
  | 0, _, r => some r
  | k + 1, i, r =>
    if i > x then some r
    else
      match csub sum i with
      | none => none
      | some j =>
        if j > y then foo4_innerC x y sum k (i + 1) r
        else
          if j < 1 then some r
          else
            match foo4_bodyC x i j r with
            | none => none
            | some r2 => foo4_innerC x y sum k (i + 1) r2

/-- Checked variant of the outer loop of `foo4`. -/
def foo4_outerC (x y : Nat) : Nat → Nat → List Nat → Option (List Nat)
  | 0, _, r => some r
  | k + 1, sum, r =>
    match foo4_innerC x y sum (sum - 1) 1 r with
    | none => none
    | some r2 => foo4_outerC x y k (sum + 1) r2

/-- Checked variant of `foo4`. -/
def foo4C (x y : Nat) : Option Nat :=
  (foo4_outerC x y (x + y + 1 - 2) 2 (List.replicate ((x + 1) * (y + 1)) 1)).map
    (fun r => r.getD (x + y * (x + 1)) 0)

theorem foo4_innerC_eq (x y sum : Nat) : ∀ k i r, i + k = sum → 1 ≤ i →
    foo4_innerC x y sum k i r = some (foo4_inner x y sum k i r) := by
  intro k
  induction k with
  | zero => intro i r hik hi; rfl
  | succ k ih =>
    intro i r hik hi
    simp only [foo4_innerC, foo4_inner]
    split
    · rfl
    · next h1 =>
      rw [csub_of_le (show i ≤ sum by omega)]
      dsimp only
      split
      · next h2 => exact ih (i + 1) r (by omega) (by omega)
      · next h2 =>
        split
        · next h3 => exact absurd h3 (by omega)
        · next h3 =>
          rw [show foo4_bodyC x i (sum - i) r = some (foo4_body x i (sum - i) r) from ?_]
          · dsimp only
            exact ih (i + 1) _ (by omega) (by omega)
          · rw [foo4_bodyC, csub_of_le (show 1 ≤ i by omega),
              csub_of_le (show 1 ≤ sum - i by omega)]
            rfl

theorem foo4_outerC_eq (x y : Nat) : ∀ k sum r, 1 ≤ sum →
    foo4_outerC x y k sum r = some (foo4_outer x y k sum r) := by
  intro k
  induction k with
  | zero => intro sum r h1; rfl
  | succ k ih =>
    intro sum r h1
    simp only [foo4_outerC, foo4_outer]
    rw [foo4_innerC_eq x y sum (sum - 1) 1 r (by omega) le_rfl]
    dsimp only
    exact ih (sum + 1) _ (by omega)

theorem foo4C_eq (x y : Nat) : foo4C x y = some (foo4 x y) := by
  rw [foo4C, foo4_outerC_eq x y (x + y + 1 - 2) 2 _ (by omega)]
  rfl

theorem getD_lt {r : List Nat} (h : ∀ e ∈ r, e < 1000) (idx : Nat) :
    r.getD idx 0 < 1000 := by
  rw [List.getD_eq_getElem?_getD]
  cases hx : r[idx]? with
  | none => show (0 : Nat) < 1000; omega
  | some v => exact h v (List.getElem?_mem hx)

theorem foo4_inner_entriesLt (x y sum : Nat) : ∀ k i r, (∀ e ∈ r, e < 1000) →
    ∀ e ∈ foo4_inner x y sum k i r, e < 1000 := by
  intro k
  induction k with
  | zero =>
    intro i r h
    simp only [foo4_inner]
    exact h
  | succ k ih =>
    intro i r h
    simp only [foo4_inner]
    split
    · exact h
    · split
      · exact ih (i + 1) r h
      · split
        · exact h
        · refine ih (i + 1) _ ?_
          intro e he
          rcases List.mem_or_eq_of_mem_set he with he2 | rfl
          · exact h e he2
          · exact Nat.mod_lt _ (by omega)

theorem foo2_cache_growth {x0 y0 : Nat} {s : Foo2State} (hinv : Foo2Inv x0 y0 s) :
    (foo2_run 1 s).cache = s.cache ∨
    ∃ k v, Cache.get s.cache k = none ∧
      (foo2_run 1 s).cache = Cache.insert s.cache k v := by
  obtain ⟨stack, rv, c⟩ := s
  cases stack with
  | nil =>
    left
    rw [foo2_run_empty rfl]
  | cons f rest =>
    cases f with
    | Initial x y =>
      by_cases hb : x = 0 ∨ y = 0
      · left
        rw [foo2_run_one (foo2_step_base hb)]
      · cases hcg : Cache.get c (x, y) with
        | some res =>
          left
          rw [foo2_run_one (foo2_step_hit hb hcg)]
        | none =>
          left
          rw [foo2_run_one (foo2_step_miss hb hcg)]
    | FirstRec x y =>
      left
      rw [foo2_run_one foo2_step_first]
    | SecondRec x y r1 =>
      left
      rw [foo2_run_one foo2_step_second]
    | ThirdRec x y r1 r2 =>
      right
      refine ⟨(x, y), (r1 + r2 + rv) % 1000, ?_, ?_⟩
      · exact hinv.awaitFresh _ (List.mem_cons_self _ _) trivial
      · rw [foo2_run_one foo2_step_third]

/-! ## The claims -/

/-- C1: for every pair of non-negative inputs (x, y), the four engines
produce identical results: foo1(x,y) == foo2(x,y) == foo3(x,y) ==
foo4(x,y). -/
theorem claim_C1 : ∀ x y : Nat,
    foo1 x y = foo2 x y ∧ foo2 x y = foo3 x y ∧ foo3 x y = foo4 x y := by
  intro x y
  rw [foo1_eq_R, foo2_eq_R, foo3_eq_R, foo4_eq_R]
  exact ⟨rfl, rfl, rfl⟩

/-- C2: foo1 returns exactly the recurrence R(x, y), and the memoization
cache does not change the computed value: with any cache whose entries are
correct, the helper still returns R(x, y). -/
theorem claim_C2 : ∀ x y : Nat, foo1 x y = R x y ∧
    ∀ c : Cache, GoodC c → (foo1_helper x y c).1 = R x y := by
  intro x y
  refine ⟨foo1_eq_R x y, ?_⟩
  intro c hg
  exact ((foo1_main (x + y) x y le_rfl c).1 hg).1

/-- Witness for C2 at (x, y) = (2, 3) with the empty cache. -/
theorem claim_C2_witness : GoodC [] ∧ (foo1_helper 2 3 []).1 = R 2 3 := by
  have hg : GoodC ([] : Cache) := by
    intro e he
    cases he
  exact ⟨hg, (claim_C2 2 3).2 [] hg⟩

/-- C3: the dispatch loop of foo2 performs finitely many iterations and
ends with the explicit stack empty, at which point the return channel rv
holds the final answer R(x, y) mod 1000. -/
theorem claim_C3 : ∀ x y : Nat, ∃ n : Nat,
    (foo2_run n (foo2_init x y)).stack = [] ∧
    (foo2_run n (foo2_init x y)).rv = R x y % 1000 := by
  intro x y
  obtain ⟨n, -, hstk, hrv⟩ := foo2_done x y
  refine ⟨n, hstk, ?_⟩
  rw [Nat.mod_eq_of_lt (R_lt x y)]
  exact hrv

/-- C4: base case: every engine returns 1 whenever either argument is 0. -/
theorem claim_C4 : ∀ x y : Nat,
    (foo1 x 0 = 1 ∧ foo1 0 y = 1) ∧ (foo2 x 0 = 1 ∧ foo2 0 y = 1) ∧
    (foo3 x 0 = 1 ∧ foo3 0 y = 1) ∧ (foo4 x 0 = 1 ∧ foo4 0 y = 1) := by
  intro x y
  have h1 : ∀ a : Nat, R a 0 = 1 := fun a => R_base (Or.inr rfl)
  have h2 : ∀ b : Nat, R 0 b = 1 := fun b => R_base (Or.inl rfl)
  simp only [foo1_eq_R, foo2_eq_R, foo3_eq_R, foo4_eq_R, h1, h2]
  exact ⟨⟨trivial, trivial⟩, ⟨trivial, trivial⟩, ⟨trivial, trivial⟩, ⟨trivial, trivial⟩⟩

/-- C5: range invariant: every engine returns a value in [0, 1000). -/
theorem claim_C5 : ∀ x y : Nat,
    foo1 x y < 1000 ∧ foo2 x y < 1000 ∧ foo3 x y < 1000 ∧ foo4 x y < 1000 := by
  intro x y
  rw [foo1_eq_R, foo2_eq_R, foo3_eq_R, foo4_eq_R]
  exact ⟨R_lt x y, R_lt x y, R_lt x y, R_lt x y⟩

/-- C6: each frame of the explicit stack of foo2 is one logically in-flight
recursive call, and at every instant of the dispatch loop the stack holds
at most x + y + 1 frames. -/
theorem claim_C6 : ∀ x y n : Nat,
    (foo2_run n (foo2_init x y)).stack.length ≤ x + y + 1 := by
  intro x y n
  exact foo2_stack_bound (foo2_inv_run (foo2_inv_init x y) n)

/-- C7: in every engine each term of every three-term sum is < 1000 before
the modulo reduction, so every intermediate sum is < 3000: foo1 returns
reduced values and keeps the cache reduced; in foo2 the three terms
entering the ThirdRec sum are < 1000; in foo4 every value read from the
table is < 1000 and the inner loop keeps every table entry < 1000. -/
theorem claim_C7 :
    (∀ x y : Nat, ∀ c : Cache, entriesLt c →
      (foo1_helper x y c).1 < 1000 ∧ entriesLt (foo1_helper x y c).2)
    ∧ (∀ x y n a b r1 r2 : Nat, ∀ rest : List StackState,
        (foo2_run n (foo2_init x y)).stack = StackState.ThirdRec a b r1 r2 :: rest →
        r1 < 1000 ∧ r2 < 1000 ∧ (foo2_run n (foo2_init x y)).rv < 1000 ∧
        r1 + r2 + (foo2_run n (foo2_init x y)).rv < 3000)
    ∧ (∀ r : List Nat, ∀ idx : Nat, (∀ e ∈ r, e < 1000) → r.getD idx 0 < 1000)
    ∧ (∀ x y sum k i : Nat, ∀ r : List Nat, (∀ e ∈ r, e < 1000) →
        ∀ e ∈ foo4_inner x y sum k i r, e < 1000) := by
  refine ⟨?_, ?_, ?_, ?_⟩
  · intro x y c hl
    exact (foo1_main (x + y) x y le_rfl c).2.1 hl
  · intro x y n a b r1 r2 rest hstk
    have hinv := foo2_inv_run (foo2_inv_init x y) n
    have hmem : StackState.ThirdRec a b r1 r2 ∈ (foo2_run n (foo2_init x y)).stack := by
      rw [hstk]
      exact List.mem_cons_self _ _
    have hstored : r1 = R (a - 1) (b - 1) ∧ r2 = R a (b - 1) := hinv.stored _ hmem
    have hrv := hinv.rvLt
    refine ⟨?_, ?_, hrv, ?_⟩
    · rw [hstored.1]; exact R_lt _ _
    · rw [hstored.2]; exact R_lt _ _
    · have l1 : r1 < 1000 := by rw [hstored.1]; exact R_lt _ _
      have l2 : r2 < 1000 := by rw [hstored.2]; exact R_lt _ _
      omega
  · intro r idx hl
    exact getD_lt hl idx
  · intro x y sum k i r hl
    exact foo4_inner_entriesLt x y sum k i r hl

/-- Witness for C7: the foo1 part at (1, 1) with the empty cache, the foo2
part at the ThirdRec state reached after 6 iterations on input (1, 1), the
table parts on the one-entry table [5]. -/
theorem claim_C7_witness :
    (entriesLt [] ∧ (foo1_helper 1 1 []).1 < 1000)
    ∧ ((foo2_run 6 (foo2_init 1 1)).stack = StackState.ThirdRec 1 1 1 1 :: []
        ∧ 1 + 1 + (foo2_run 6 (foo2_init 1 1)).rv < 3000)
    ∧ ((∀ e ∈ [(5 : Nat)], e < 1000) ∧ ([(5 : Nat)].getD 0 0) < 1000)
    ∧ (∀ e ∈ foo4_inner 1 1 2 1 1 [(5 : Nat)], e < 1000) := by
  have he : entriesLt ([] : Cache) := by
    intro e hee
    cases hee
  have hs : (foo2_run 6 (foo2_init 1 1)).stack = StackState.ThirdRec 1 1 1 1 :: [] := by
    decide
  have hl : ∀ e ∈ [(5 : Nat)], e < 1000 := by decide
  exact ⟨⟨he, (claim_C7.1 1 1 [] he).1⟩,
    ⟨hs, (claim_C7.2.1 1 1 6 1 1 1 1 [] hs).2.2.2⟩,
    ⟨hl, claim_C7.2.2.1 [(5 : Nat)] 0 hl⟩,
    claim_C7.2.2.2 1 1 2 1 1 [(5 : Nat)] hl⟩

/-- C8: cache write-once invariant: starting from the empty cache, the
final foo1 cache has pairwise distinct keys and stores exactly the
recurrence values (so a hypothetical re-insertion would store the same
value); in foo2 every reachable cache has distinct keys and correct
values, and each loop iteration either leaves the cache unchanged or
inserts a key that is not yet present. -/
theorem claim_C8 : ∀ x y : Nat,
    ((ckeys (foo1_helper x y []).2).Nodup ∧ GoodC (foo1_helper x y []).2)
    ∧ (∀ n, (ckeys (foo2_run n (foo2_init x y)).cache).Nodup
        ∧ GoodC (foo2_run n (foo2_init x y)).cache)
    ∧ (∀ n, (foo2_run (n + 1) (foo2_init x y)).cache = (foo2_run n (foo2_init x y)).cache
        ∨ ∃ k v, Cache.get (foo2_run n (foo2_init x y)).cache k = none
            ∧ (foo2_run (n + 1) (foo2_init x y)).cache
              = Cache.insert (foo2_run n (foo2_init x y)).cache k v) := by
  intro x y
  have hmain := foo1_main (x + y) x y le_rfl []
  have hg : GoodC ([] : Cache) := by
    intro e he
    cases he
  refine ⟨⟨hmain.2.2.2 List.nodup_nil, (hmain.1 hg).2⟩, ?_, ?_⟩
  · intro n
    have hinv := foo2_inv_run (foo2_inv_init x y) n
    exact ⟨hinv.cacheNodup, hinv.cacheGood⟩
  · intro n
    have hinv := foo2_inv_run (foo2_inv_init x y) n
    rw [foo2_run_add n 1 (foo2_init x y)]
    exact foo2_cache_growth hinv

/-- C9: symmetry: every engine satisfies eval(x, y) == eval(y, x). -/
theorem claim_C9 : ∀ x y : Nat,
    foo1 x y = foo1 y x ∧ foo2 x y = foo2 y x ∧
    foo3 x y = foo3 y x ∧ foo4 x y = foo4 y x := by
  intro x y
  simp only [foo1_eq_R, foo2_eq_R, foo3_eq_R, foo4_eq_R]
  exact ⟨R_symm x y, R_symm x y, R_symm x y, R_symm x y⟩

/-- C10: no unsigned subtraction ever underflows in any engine: running
each engine with every source-level subtraction checked produces `some` of
the unchecked result. -/
theorem claim_C10 : ∀ x y : Nat,
    foo1C x y = some (foo1 x y)
    ∧ (∀ n, foo2_runC n (foo2_init x y) = some (foo2_run n (foo2_init x y)))
    ∧ foo3C x y = some (foo3 x y)
    ∧ foo4C x y = some (foo4 x y) := by
  intro x y
  refine ⟨?_, ?_, ?_, foo4C_eq x y⟩
  · rw [foo1C, foo1C_helper_eq (x + y) x y le_rfl []]
    rfl
  · intro n
    exact foo2_runC_eq n (foo2_inv_init x y)
  · rw [foo3C, foo3C_helper_eq (x + y) x y le_rfl []]
    rfl
